import Mathlib

/-!
Verification of the dependency-tree visualization core: a heap-ordered tree
with a directed-edge overlay (src/data/Tree.js), a segment-based path model
with recursive Bezier flattening (src/geom/Path.js), a uniform b-spline
(src/geom/Circle.js, BasisSpline), a radial circle layout
(src/vis/CircleLayout.js) and a bundled-edge router
(src/vis/BundledEdgeRouter.js).

The JavaScript source is shallowly embedded: nodes are identified by their
allocation id into a growing store, the node table `tree.nodes` is a list of
ids, numeric coordinates are rationals (the layout, whose angles involve pi,
is stated over a general field and instantiated at the reals), and the
mutually recursive removal loops carry explicit fuel, returning `none` when
the fuel runs out (the JavaScript would still be looping).
-/

set_option maxRecDepth 8000

namespace DepVis

/-! ## Tree.js: node store, addChild, removeChild, clearChildren, clearEdges -/

/-- Node record mirroring the fields of `Tree._Node` (src/data/Tree.js lines
17-25): parent link, ordered children, outgoing/incoming directed-edge lists
and the heap index.  Nodes are referred to by allocation id. -/
structure Node where
  parent : Option Nat
  children : List Nat
  outgoing : List Nat
  incoming : List Nat
  index : Nat
deriving Repr, DecidableEq

instance : Inhabited Node := ⟨⟨none, [], [], [], 0⟩⟩

/-- Tree state: `store` holds every node ever allocated, indexed by id
(JavaScript object identity); `nodes` is the table `tree.nodes`, the list of
live node ids in index order. -/
structure TreeState where
  store : List Node
  nodes : List Nat
deriving Repr, DecidableEq

/-- Look up a node by id in the store. -/
def getNode (st : TreeState) (id_ : Nat) : Node :=
  st.store.getD id_ default

/-- Replace the element at position `i` by `f` of itself (in-place field
mutation of a JavaScript object). -/
def modifyAt (l : List Node) (i : Nat) (f : Node → Node) : List Node :=
  match l.get? i with
  | some x => l.set i (f x)
  | none => l

/-- Apply `f` to the node with the given id. -/
def modifyNode (st : TreeState) (id_ : Nat) (f : Node → Node) : TreeState :=
  { st with store := modifyAt st.store id_ f }

/-- Fresh tree as built by `Tree.prototype.clear` (src/data/Tree.js lines
124-127): a single root node (id 0) with no edges, index 0. -/
def newTree : TreeState :=
  { store := [⟨none, [], [], [], 0⟩], nodes := [0] }

/-- Embedding of `Tree._Node.prototype.addChild` together with the
`Tree._Node` constructor (src/data/Tree.js lines 17-38): the new node gets
index `tree.nodes.length`, is appended to `tree.nodes`, and its id is
appended to the parent's children.  Returns the updated state and the new
node's id. -/
def addChild (st : TreeState) (pid : Nat) : TreeState × Nat :=
  let id_ := st.store.length
  let child : Node :=
    { parent := some pid, children := [], outgoing := [], incoming := [],
      index := st.nodes.length }
  let st1 : TreeState := { store := st.store ++ [child], nodes := st.nodes ++ [id_] }
  (modifyNode st1 pid (fun nd => { nd with children := nd.children ++ [id_] }), id_)

/-- Embedding of `Tree._Node.prototype.clearEdges` (src/data/Tree.js lines
91-100): remove this node from the `outgoing` list of each incoming
neighbor and from the `incoming` list of each outgoing neighbor, then reset
both edge lists. -/
def clearEdges (st : TreeState) (id_ : Nat) : TreeState :=
  let nd := getNode st id_
  let s1 := nd.incoming.foldl
    (fun s i => modifyNode s i (fun m => { m with outgoing := m.outgoing.erase id_ })) st
  let s2 := nd.outgoing.foldl
    (fun s o => modifyNode s o (fun m => { m with incoming := m.incoming.erase id_ })) s1
  modifyNode s2 id_ (fun m => { m with incoming := [], outgoing := [] })

/-- Renumbering loop at the end of `removeChild` (src/data/Tree.js lines
50-52): `for (i = child.index; i < nodes.length; i++) nodes[i].index = i`. -/
def renumberFrom (st : TreeState) (start : Nat) : TreeState :=
  let store2 :=
    (List.range st.nodes.length).foldl
      (fun s i =>
        if start ≤ i then modifyAt s (st.nodes.getD i 0) (fun nd => { nd with index := i })
        else s)
      st.store
  { st with store := store2 }

mutual

/-- Embedding of `Tree._Node.prototype.removeChild` (src/data/Tree.js lines
45-53), with `pid` playing `this` and `cid` the child argument: remove the
child from `this.children`, clear the child's edges, run the child's
`clearChildren` loop, splice the child out of `tree.nodes` at its index and
renumber the tail.  `fuel` bounds the recursion; `none` means it ran out. -/
def removeChild : Nat → TreeState → Nat → Nat → Option TreeState
  | 0, _, _, _ => none
  | fuel + 1, st, pid, cid =>
    let st1 := modifyNode st pid (fun nd => { nd with children := nd.children.erase cid })
    let st2 := clearEdges st1 cid
    match clearChildrenLoop fuel st2 cid 0 with
    | none => none
    | some st3 =>
      let ci := (getNode st3 cid).index
      let st4 : TreeState := { st3 with nodes := st3.nodes.eraseIdx ci }
      some (renumberFrom st4 ci)

/-- Embedding of `Tree._Node.prototype.clearChildren` (src/data/Tree.js
lines 56-60): `for (i = 0; i < this.children.length; i++)
this.removeChild(this.children[i])`, re-reading the (spliced) children list
at every iteration exactly as the JavaScript loop does. -/
def clearChildrenLoop : Nat → TreeState → Nat → Nat → Option TreeState
  | 0, _, _, _ => none
  | fuel + 1, st, id_, i =>
    let cs := (getNode st id_).children
    if i < cs.length then
      match removeChild fuel st id_ (cs.getD i 0) with
      | none => none
      | some st2 => clearChildrenLoop fuel st2 id_ (i + 1)
    else some st

end

/-- Scenario state: root (id 0) with one child c (id 1), which itself has
two children g1 (id 2) and g2 (id 3).  Built by three addChild calls. -/
def beforeRemove : TreeState :=
  let s1 := (addChild newTree 0).1
  let s2 := (addChild s1 1).1
  (addChild s2 1).1

/-- Result of `removeChild(root, c)` on `beforeRemove` (ample fuel). -/
def afterRemove : Option TreeState :=
  removeChild 10 beforeRemove 0 1

/-- Decidable check of the C2 invariant on a tree state: every node in the
table whose parent is set has that parent in the table with a strictly
smaller index, and the stored indices are exactly the compacted positions
0..n-1 in table order. -/
def heapInvariant (st : TreeState) : Bool :=
  (st.nodes.all fun id_ =>
    match (getNode st id_).parent with
    | none => true
    | some pid =>
      st.nodes.contains pid && decide ((getNode st pid).index < (getNode st id_).index))
  && ((List.range st.nodes.length).all fun i =>
    decide ((getNode st (st.nodes.getD i 0)).index = i))

/-! ## Tree.js: ancestors and leastCommonAncestor

For ancestry queries nodes are identified with their heap indices and the
parent/child structure with the partial parent map `p : Nat → Option Nat`
(`p i = none` for the root).  This is the reachable-heap view of a
well-formed tree, which is exactly the precondition of
`leastCommonAncestor` ("the two nodes must be from this tree").  The chain
walk of `Tree._Node.prototype.ancestors` carries fuel; under heap ordering
(parent index < child index) fuel `a + 1` never runs out. -/

/-- Fueled chain walk behind `ancestors`: the node, then its parent, up to
the root (src/data/Tree.js lines 107-117). -/
def ancestorsF (p : Nat → Option Nat) : Nat → Nat → List Nat
  | 0, a => [a]
  | fuel + 1, a =>
    match p a with
    | none => [a]
    | some q => a :: ancestorsF p fuel q

/-- Embedding of `Tree._Node.prototype.ancestors`: this node first, the
root last. -/
def ancestors (p : Nat → Option Nat) (a : Nat) : List Nat :=
  ancestorsF p (a + 1) a

/-- Scanning loop of `leastCommonAncestor` (src/data/Tree.js lines
143-151): both reversed ancestor chains are consumed root-first while their
heads agree, remembering the last shared node.  A JavaScript `pop` on an
exhausted array yields `undefined`, which compares unequal to any node, so
exhaustion of either list ends the loop with the current `sharedNode`. -/
def lcaWalk : List Nat → List Nat → Option Nat → Option Nat
  | a :: as, b :: bs, shared =>
    if a = b then lcaWalk as bs (some a) else shared
  | _, _, shared => shared

/-- Embedding of `Tree.prototype.leastCommonAncestor` (src/data/Tree.js
lines 137-152): `a` immediately when `a == b`, otherwise the deepest node
on which the two root-first ancestor chains agree. -/
def leastCommonAncestor (p : Nat → Option Nat) (a b : Nat) : Option Nat :=
  if a = b then some a
  else lcaWalk (ancestors p a).reverse (ancestors p b).reverse none

/-- Node `x` is an ancestor of node `a` (each node is its own ancestor):
membership in the `ancestors` chain. -/
def isAncestor (p : Nat → Option Nat) (x a : Nat) : Prop :=
  x ∈ ancestors p a

/-- Well-formed tree on indices `0..n-1`: node 0 is the unique root and
every other node has a parent of strictly smaller index (heap ordering, the
invariant maintained by Tree.js). -/
def WFTree (p : Nat → Option Nat) (n : Nat) : Prop :=
  0 < n ∧ p 0 = none ∧ ∀ i, i < n → i ≠ 0 → ∃ q, q < i ∧ q < n ∧ p i = some q

/-- Heap ordering alone: any parent of an in-range node is in range and has
a smaller index. -/
def HeapOrd (p : Nat → Option Nat) (n : Nat) : Prop :=
  ∀ i, i < n → ∀ q, p i = some q → q < i ∧ q < n

/-! ## List prefix/suffix helpers used by the LCA proof -/

/-- List `u` is an initial run of list `v`. -/
def IsPre (u v : List Nat) : Prop := ∃ t, u ++ t = v

/-- List `u` is a final run of list `v`. -/
def IsSuf (u v : List Nat) : Prop := ∃ t, t ++ u = v

/-- Longest common initial run of two lists. -/
def cp : List Nat → List Nat → List Nat
  | a :: as, b :: bs => if a = b then a :: cp as bs else []
  | _, _ => []

/-- Concrete parent map of the six-node scenario tree: root (index 0) with
children A (1) and B (2); A has children leaf1 (3) and leaf2 (4); B has
child leaf3 (5). -/
def par6 : Nat → Option Nat
  | 1 => some 0
  | 2 => some 0
  | 3 => some 1
  | 4 => some 1
  | 5 => some 2
  | _ => none

/-! ## Vector.js: 2D points over the rationals -/

/-- Point/vector record of src/geom/Vector.js.  Coordinates are rationals:
the source computes with IEEE doubles, but every claim below is about the
exact arithmetic the formulas denote. -/
structure Vector where
  x : ℚ
  y : ℚ
deriving Repr, DecidableEq

/-- Embedding of `Vector.prototype.perp`: the perpendicular (-y, x). -/
def perp (v : Vector) : Vector := ⟨-v.y, v.x⟩

/-- Embedding of `Vector.prototype.dot`. -/
def dot (u v : Vector) : ℚ := u.x * v.x + u.y * v.y

/-- Embedding of `Vector.prototype.cross` (z-component). -/
def cross (u v : Vector) : ℚ := u.x * v.y - u.y * v.x

/-- Componentwise difference (used to phrase the spec-side chord test). -/
def vsub (u v : Vector) : Vector := ⟨u.x - v.x, u.y - v.y⟩

/-- Midpoint of two points (used by the spec-side de Casteljau split). -/
def midPt (u v : Vector) : Vector := ⟨(u.x + v.x) / 2, (u.y + v.y) / 2⟩

/-! ## Path.js: segments, flat, flatten -/

/-- Path segment (src/geom/Path.js lines 14-27): a move or line records its
destination; a Bezier records destination then the two control points, in
the order `Path.Segment` stores its points array. -/
inductive Segment where
  | move (p : Vector)
  | line (p : Vector)
  | bezier (p cp1 cp2 : Vector)
deriving Repr, DecidableEq

/-- Points[0] of a segment: its destination point. -/
def segPoint : Segment → Vector
  | .move p => p
  | .line p => p
  | .bezier p _ _ => p

/-- Embedding of `Path.prototype.flat` (src/geom/Path.js lines 226-234):
true iff no `SEG_BEZIER` segment is present. -/
def flat (segs : List Segment) : Bool :=
  segs.all fun s =>
    match s with
    | .bezier _ _ _ => false
    | _ => true

/-- Embedding of `Path._weightCurve` (src/geom/Path.js lines 381-385):
weighted sum of four control points, x and y independently. -/
def weightCurve (w0 w1 w2 w3 : ℚ) (p1 p2 p3 p4 : Vector) : Vector :=
  ⟨w0 * p1.x + w1 * p2.x + w2 * p3.x + w3 * p4.x,
    w0 * p1.y + w1 * p2.y + w2 * p3.y + w3 * p4.y⟩

/-- Decides `Line(s, e).distance(b) <= f` (src/geom/Path.js lines 426-433)
by squared comparison: the source computes `|dx*(s.y-b.y) - dy*(s.x-b.x)| /
sqrt(dx^2+dy^2)` (or the point distance when the line is degenerate) and
compares it to `f`; since both sides are nonnegative for `f >= 0` and the
comparison is false for `f < 0`, squaring is exact.  The lemma
`distLE_iff_sqrt_dist_le` below proves this equivalence over the reals. -/
def distLE (s e b : Vector) (f : ℚ) : Bool :=
  let dx := e.x - s.x
  let dy := e.y - s.y
  if dx = 0 ∧ dy = 0 then
    decide (0 ≤ f ∧ (s.x - b.x) ^ 2 + (s.y - b.y) ^ 2 ≤ f ^ 2)
  else
    decide (0 ≤ f ∧ (dx * (s.y - b.y) - dy * (s.x - b.x)) ^ 2 ≤ f ^ 2 * (dx ^ 2 + dy ^ 2))

/-- Embedding of the recursive `addCurve` closure inside
`Path.prototype.flatten` (src/geom/Path.js lines 255-272): if both inner
control points pass the flatness test against the chord line a-d, emit one
line segment to `d`; otherwise split with the `Path._bezierLeft` /
`Path._bezierRight` matrices and recurse, left half first.  The returned
list is the sequence of `lineTo` calls; `none` means the fuel ran out
(the JavaScript would still be recursing). -/
def addCurve (f : ℚ) : Nat → Vector → Vector → Vector → Vector → Option (List Segment)
  | 0, _, _, _, _ => none
  | fuel + 1, a, b, c, d =>
    if distLE a d b f && distLE a d c f then some [Segment.line d]
    else
      let bl := weightCurve (4/8) (4/8) (0/8) (0/8) a b c d
      let cl := weightCurve (2/8) (4/8) (2/8) (0/8) a b c d
      let dl := weightCurve (1/8) (3/8) (3/8) (1/8) a b c d
      let br := weightCurve (0/8) (2/8) (4/8) (2/8) a b c d
      let cr := weightCurve (0/8) (0/8) (4/8) (4/8) a b c d
      match addCurve f fuel a bl cl dl with
      | none => none
      | some L =>
        match addCurve f fuel dl br cr d with
        | none => none
        | some R => some (L ++ R)

/-- Segment loop of `Path.prototype.flatten` (src/geom/Path.js lines
274-289): Bezier segments are expanded by `addCurve` from the previous
segment's destination; all other segments are copied.  A Bezier with no
preceding segment reads `segments[-1]` in the source, a crash, modelled as
`none`. -/
def flattenSegs (f : ℚ) (fuel : Nat) : Option Segment → List Segment → Option (List Segment)
  | _, [] => some []
  | prev?, s :: rest =>
    match s with
    | .bezier p c1 c2 =>
      match prev? with
      | none => none
      | some prev =>
        match addCurve f fuel (segPoint prev) c1 c2 p with
        | none => none
        | some cur =>
          match flattenSegs f fuel (some s) rest with
          | none => none
          | some tail => some (cur ++ tail)
    | _ =>
      (flattenSegs f fuel (some s) rest).map fun t => s :: t

/-- Embedding of `Path.prototype.flatten` (src/geom/Path.js lines
244-292): a no-op on an already flat path, otherwise the segment loop. -/
def flatten (f : ℚ) (fuel : Nat) (segs : List Segment) : Option (List Segment) :=
  if flat segs then some segs else flattenSegs f fuel none segs

/-! ## Spec-side flattening recursion (claim C6)

Written from the specification text: test the two inner control points
against the chord between the curve's endpoints, emit one line segment to
the endpoint on success, otherwise split at the curve midpoint with the
standard de Casteljau averages and recurse, left half first. -/

/-- Spec-side flatness test: point `b` lies within `f` of the chord from
`a` to `d`, phrased with the squared perpendicular distance (point distance
when the chord is degenerate). -/
def withinChord (a d b : Vector) (f : ℚ) : Bool :=
  let ch := vsub d a
  if ch.x = 0 ∧ ch.y = 0 then
    decide (0 ≤ f ∧ (b.x - a.x) ^ 2 + (b.y - a.y) ^ 2 ≤ f ^ 2)
  else
    decide (0 ≤ f ∧ (cross ch (vsub b a)) ^ 2 ≤ f ^ 2 * (ch.x ^ 2 + ch.y ^ 2))

/-- Spec-side subdivision: the list of polyline vertices emitted for the
cubic `(a, b, c, d)`, left half before right half, splitting with midpoint
averages (de Casteljau at t = 1/2). -/
def specCurve (f : ℚ) : Nat → Vector → Vector → Vector → Vector → Option (List Vector)
  | 0, _, _, _, _ => none
  | fuel + 1, a, b, c, d =>
    if withinChord a d b f && withinChord a d c f then some [d]
    else
      let ab := midPt a b
      let bc := midPt b c
      let cd := midPt c d
      let abc := midPt ab bc
      let bcd := midPt bc cd
      let m := midPt abc bcd
      match specCurve f fuel a ab abc m with
      | none => none
      | some L =>
        match specCurve f fuel m bcd cd d with
        | none => none
        | some R => some (L ++ R)

/-- Spec-side segment loop: each cubic becomes the line segments through
its `specCurve` vertices; other segments are copied. -/
def flattenSpecSegs (f : ℚ) (fuel : Nat) : Option Segment → List Segment → Option (List Segment)
  | _, [] => some []
  | prev?, s :: rest =>
    match s with
    | .bezier p c1 c2 =>
      match prev? with
      | none => none
      | some prev =>
        match specCurve f fuel (segPoint prev) c1 c2 p with
        | none => none
        | some cur =>
          match flattenSpecSegs f fuel (some s) rest with
          | none => none
          | some tail => some (cur.map Segment.line ++ tail)
    | _ =>
      (flattenSpecSegs f fuel (some s) rest).map fun t => s :: t

/-! ## Line.intersect (src/geom/Path.js lines 458-487) -/

/-- Embedding of the static `Line.intersect`: the parametric segment
intersection test, with the source's sign-dependent range checks on the
two numerators `d` and `e` against the common denominator `f`. -/
def intersect (p1 p2 q1 q2 : Vector) : Bool :=
  let a : Vector := ⟨q2.x - q1.x, q2.y - q1.y⟩
  let b : Vector := ⟨p1.y - p2.y, p2.x - p1.x⟩
  let c : Vector := ⟨p1.x - q1.x, p1.y - q1.y⟩
  let d := dot c (perp a)
  let f := dot a b
  if if f > 0 then d < 0 ∨ d > f else d > 0 ∨ d < f then false
  else
    let e := dot c b
    if if f > 0 then e < 0 ∨ e > f else e > 0 ∨ e < f then false
    else true

/-- Four points lying on one common line `A*x + B*y = C` with
`(A, B) ≠ (0, 0)`. -/
def CollinearPts (p1 p2 q1 q2 : Vector) : Prop :=
  ∃ A B C : ℚ, ¬(A = 0 ∧ B = 0) ∧
    A * p1.x + B * p1.y = C ∧ A * p2.x + B * p2.y = C ∧
    A * q1.x + B * q1.y = C ∧ A * q2.x + B * q2.y = C

/-! ## BasisSpline (src/geom/Circle.js lines 101-252) -/

/-- State of a `BasisSpline`: the control points and the cached segment
array (`null` encoded as `none`). -/
structure BasisSpline where
  pts : List Vector
  segCache : Option (List Segment)
deriving Repr, DecidableEq

/-- Embedding of `BasisSpline.prototype.straighten` (src/geom/Circle.js
lines 161-173): every interior control point `P_i` (0 < i < N-1) moves to
`beta*P_i + (1-beta)*(P_0 + i*(P_{N-1}-P_0)/(N-1))`; the first and last
points are untouched; the cached segments are invalidated. -/
def straighten (beta : ℚ) (s : BasisSpline) : BasisSpline :=
  let z := s.pts
  let e := z.length - 1
  let p0 := z.headD ⟨0, 0⟩
  let pe := z.getD e ⟨0, 0⟩
  let dx := pe.x - p0.x
  let dy := pe.y - p0.y
  let pts2 := z.mapIdx fun i p =>
    if 1 ≤ i ∧ i < e then
      ⟨beta * p.x + (1 - beta) * (p0.x + (i : ℚ) * dx / (e : ℚ)),
        beta * p.y + (1 - beta) * (p0.y + (i : ℚ) * dy / (e : ℚ))⟩
    else p
  { pts := pts2, segCache := none }

/-- Spec-side formula for C8, written from the specification text: the new
interior control point `beta*P_i + (1-beta)*(P_0 + (P_{N-1} - P_0)*i/(N-1))`
for control-point list `z` of length `N`. -/
def straightFormula (beta : ℚ) (z : List Vector) (i : Nat) : Vector :=
  let N := z.length
  let P := z.getD i ⟨0, 0⟩
  let p0 := z.getD 0 ⟨0, 0⟩
  let pe := z.getD (N - 1) ⟨0, 0⟩
  ⟨beta * P.x + (1 - beta) * (p0.x + (pe.x - p0.x) * (i : ℚ) / ((N : ℚ) - 1)),
    beta * P.y + (1 - beta) * (p0.y + (pe.y - p0.y) * (i : ℚ) / ((N : ℚ) - 1))⟩

/-- Embedding of `BasisSpline.prototype._basisCurveTo` (src/geom/Circle.js
lines 247-252): one window of four control points becomes one Bezier
segment via rows 1-3 of `BasisSpline._basisToBezier`. -/
def basisCurve (p0 p1 p2 p3 : Vector) : Segment :=
  let b1 := weightCurve (0/6) (4/6) (2/6) (0/6) p0 p1 p2 p3
  let b2 := weightCurve (0/6) (2/6) (4/6) (0/6) p0 p1 p2 p3
  let b3 := weightCurve (0/6) (1/6) (4/6) (1/6) p0 p1 p2 p3
  Segment.bezier b3 b1 b2

/-- Sliding-window loop of `BasisSpline.prototype.segments` for ≥ 3 control
points: emit the current window, shift the next point in, and finish with
the two end windows that repeat the last point. -/
def basisChain (p0 p1 p2 p3 : Vector) : List Vector → List Segment
  | [] => [basisCurve p0 p1 p2 p3, basisCurve p1 p2 p3 p3, basisCurve p2 p3 p3 p3]
  | q :: rest => basisCurve p0 p1 p2 p3 :: basisChain p1 p2 p3 q rest

/-- Segment computation of `BasisSpline.prototype.segments`
(src/geom/Circle.js lines 185-230): empty for 0 points, a single move for
1, move+line for 2, and for ≥ 3 the move followed by the window loop seeded
with the first point repeated three times. -/
def computeSegments : List Vector → List Segment
  | [] => []
  | [p] => [Segment.move p]
  | [p, q] => [Segment.move p, Segment.line q]
  | p0 :: p1 :: rest => Segment.move p0 :: basisChain p0 p0 p0 p1 rest

/-- Embedding of `BasisSpline.prototype.segments`: the cache when present,
otherwise the recomputation from the control points. -/
def segments (s : BasisSpline) : List Segment :=
  match s.segCache with
  | some segs => segs
  | none => computeSegments s.pts

/-! ## BundledEdgeRouter (src/vis/BundledEdgeRouter.js lines 27-45) -/

/-- First while-loop of `_spline`: walk up parents from `start` until the
LCA, recording each index visited after stepping (so the LCA itself is
included, the start node is not). -/
def ascendFrom (p : Nat → Option Nat) : Nat → Nat → Nat → Option (List Nat)
  | 0, start, lca => if start = lca then some [] else none
  | fuel + 1, start, lca =>
    if start = lca then some []
    else
      match p start with
      | none => none
      | some q => (ascendFrom p fuel q lca).map fun l => q :: l

/-- JavaScript `array.add(index, element)` = `splice(index, 0, element)`:
insert so the element lands at the given position. -/
def insertAt : Nat → Vector → List Vector → List Vector
  | 0, v, l => v :: l
  | _ + 1, v, [] => [v]
  | k + 1, v, a :: l => a :: insertAt k v l

/-- Second while-loop of `_spline`: walk up parents from `end`, inserting
each visited node's transformed position at the fixed index `k` (before
stepping), stopping at the LCA, which is not inserted. -/
def descendLoop (p : Nat → Option Nat) (posT : Nat → Vector) (k : Nat) :
    Nat → Nat → Nat → List Vector → Option (List Vector)
  | 0, e, lca, acc => if e = lca then some acc else none
  | fuel + 1, e, lca, acc =>
    if e = lca then some acc
    else
      match p e with
      | none => none
      | some q => descendLoop p posT k fuel q lca (insertAt k (posT e) acc)

/-- Control-point sequence built by `BundledEdgeRouter.prototype._spline`
for the edge `i → j`, before the spline is created and straightened:
`transformPoint(position(i))`, the ascent from `i` to the LCA, then the
descent chain from `j` inserted at the fixed index `k`. -/
def splinePoints (p : Nat → Option Nat) (pos : Nat → Vector) (tp : Vector → Vector)
    (i j fuel : Nat) : Option (List Vector) :=
  match leastCommonAncestor p i j with
  | none => none
  | some lca =>
    match ascendFrom p fuel i lca with
    | none => none
    | some up =>
      let pts1 := tp (pos i) :: up.map fun ix => tp (pos ix)
      descendLoop p (fun ix => tp (pos ix)) pts1.length fuel j lca pts1

/-- Full `_spline`: the control points fed into a fresh `BasisSpline`
(which nulls the segment cache) and straightened with `beta`. -/
def routerSpline (p : Nat → Option Nat) (pos : Nat → Vector) (tp : Vector → Vector)
    (beta : ℚ) (i j fuel : Nat) : Option BasisSpline :=
  (splinePoints p pos tp i j fuel).map fun ptsList =>
    straighten beta { pts := ptsList, segCache := none }

/-! ## CircleLayout (src/vis/CircleLayout.js lines 30-92)

The layout tree shape: each node carries its heap index and its ordered
children.  Angles live in an arbitrary field so the concrete scenario can
be stated exactly at the reals with endAngle 2*pi. -/

/-- Tree shape consumed by the layout. -/
inductive LTree where
  | mk (idx : Nat) (children : List LTree)

mutual

/-- Weight computed by the `count` closure of `CircleLayout.prototype.init`
(src/vis/CircleLayout.js lines 40-57): a leaf weighs 1, an internal node
the sum of its children's weights, bumped by one when the sum equals the
number of children (every child a leaf). -/
def wcount : LTree → Nat
  | .mk _ cs =>
    let s := (if cs.length = 0 then 1 else 0) + wcountSum cs
    if s = cs.length then s + 1 else s

/-- Sum of the weights of a list of children. -/
def wcountSum : List LTree → Nat
  | [] => 0
  | t :: ts => wcount t + wcountSum ts

end

mutual

/-- Angular spans assigned by the `placeAll` closure of
`CircleLayout.prototype.init` (src/vis/CircleLayout.js lines 68-77), with
no sort comparator installed: each node is listed with its `[start, end]`
span, the node itself placed at the midpoint `(start+end)/2`, and the
span divided among the children proportionally to their weights. -/
def spans {K : Type} [Field K] : LTree → K → K → List (Nat × K × K)
  | .mk ix cs, s, e =>
    (ix, s, e) :: spansKids cs s ((e - s) / (wcount (LTree.mk ix cs) : K)) 0

/-- Child loop of `placeAll`: child `k` receives the span from
`start + i*step` to `start + j*step` where `j = i + count(child)`. -/
def spansKids {K : Type} [Field K] : List LTree → K → K → Nat → List (Nat × K × K)
  | [], _, _, _ => []
  | c :: rest, start, step, i =>
    let j := i + wcount c
    spans c (start + (i : K) * step) (start + (j : K) * step) ++ spansKids rest start step j

end

/-- The scenario tree: root 0 with children A = 1 and B = 2; A has leaves
3 and 4, B has leaf 5 (child order = index order, matching `par6`). -/
def tree6 : LTree :=
  .mk 0 [.mk 1 [.mk 3 [], .mk 4 []], .mk 2 [.mk 5 []]]

end DepVis

namespace DepVis

/-! ## Theorems -/

/-- C1: `removeChild(parent, child)` is claimed to remove every descendant
of `child` from the node table.  The code does not: `clearChildren`
iterates forward over `this.children` while each recursive `removeChild`
splices that same array, so every other child is skipped.  On a tree where
the removed child has two children g1 (id 2) and g2 (id 3), the call
`removeChild(root, c)` (with c genuinely a child of root, as the first
conjunct checks) leaves g2 in `tree.nodes`, with its parent pointing at the
removed node c (id 1), which is no longer in the table. -/
theorem removeChild_skips_second_grandchild :
    (getNode beforeRemove 0).children = [1] ∧
    (afterRemove.map fun st =>
      (st.nodes, (getNode st 3).parent, st.nodes.contains 1))
      = some ([0, 3], some 1, false) := by
  decide

/-- C2: the heap/containment/contiguity invariant is claimed to hold after
any addChild/removeChild sequence in which removeChild is only applied to
an actual child of the receiver.  It holds before the removal, but after
`removeChild(root, c)` on the scenario tree the surviving grandchild g2
(id 3) has index 1 while its parent c (id 1, removed from the table) also
has stored index 1, so `index(parent(c)) < index(c)` fails and the parent
of a table node is not itself in the table. -/
theorem heap_invariant_violated :
    heapInvariant beforeRemove = true ∧
    (getNode beforeRemove 0).children = [1] ∧
    (afterRemove.map fun st =>
      (heapInvariant st, st.nodes, (getNode st 3).parent,
        (getNode st 3).index, (getNode st 1).index, st.nodes.contains 1))
      = some (false, [0, 3], some 1, 1, 1, false) := by
  decide

/-! ### Helper lemmas for the LCA proof -/

theorem isPre_antisymm {u v : List Nat} (h1 : IsPre u v) (h2 : IsPre v u) : u = v := by
  obtain ⟨t1, ht1⟩ := h1
  obtain ⟨t2, ht2⟩ := h2
  have hl1 : v.length = u.length + t1.length := by rw [← ht1]; simp
  have hl2 : u.length = v.length + t2.length := by rw [← ht2]; simp
  have ht1nil : t1 = [] := List.length_eq_zero.mp (by omega)
  simpa [ht1nil] using ht1

theorem isPre_rev_of_isSuf {u v : List Nat} (h : IsSuf u v) :
    IsPre u.reverse v.reverse := by
  obtain ⟨t, ht⟩ := h
  exact ⟨t.reverse, by rw [← ht]; simp⟩

theorem isSuf_of_isPre_rev {u v : List Nat} (h : IsPre u.reverse v.reverse) :
    IsSuf u v := by
  obtain ⟨t, ht⟩ := h
  refine ⟨t.reverse, ?_⟩
  have h2 := congrArg List.reverse ht
  simpa using h2

theorem isSuf_nil_right {s : List Nat} (h : IsSuf s []) : s = [] := by
  obtain ⟨t, ht⟩ := h
  exact (List.append_eq_nil.mp ht).2

theorem isSuf_cons_iff {s : List Nat} {a : Nat} {t : List Nat} :
    IsSuf s (a :: t) ↔ s = a :: t ∨ IsSuf s t := by
  constructor
  · rintro ⟨w, hw⟩
    cases w with
    | nil => exact Or.inl (by simpa using hw)
    | cons b w2 =>
      right
      rw [List.cons_append] at hw
      exact ⟨w2, by injection hw⟩
  · rintro (rfl | ⟨w, hw⟩)
    · exact ⟨[], rfl⟩
    · exact ⟨a :: w, by rw [List.cons_append, hw]⟩

theorem cp_isPre_left : ∀ xs ys : List Nat, IsPre (cp xs ys) xs := by
  intro xs
  induction xs with
  | nil => intro ys; exact ⟨[], by simp [cp]⟩
  | cons x as IH =>
    intro ys
    cases ys with
    | nil => exact ⟨x :: as, by simp [cp]⟩
    | cons y bs =>
      by_cases h : x = y
      · subst h
        obtain ⟨t, ht⟩ := IH bs
        exact ⟨t, by simp [cp, ht]⟩
      · exact ⟨x :: as, by simp [cp, h]⟩

theorem cp_isPre_right : ∀ xs ys : List Nat, IsPre (cp xs ys) ys := by
  intro xs
  induction xs with
  | nil => intro ys; exact ⟨ys, by simp [cp]⟩
  | cons x as IH =>
    intro ys
    cases ys with
    | nil => exact ⟨[], by simp [cp]⟩
    | cons y bs =>
      by_cases h : x = y
      · subst h
        obtain ⟨t, ht⟩ := IH bs
        exact ⟨t, by simp [cp, ht]⟩
      · exact ⟨y :: bs, by simp [cp, h]⟩

theorem cp_greatest : ∀ l xs ys : List Nat, IsPre l xs → IsPre l ys → IsPre l (cp xs ys) := by
  intro l
  induction l with
  | nil => intro xs ys _ _; exact ⟨cp xs ys, rfl⟩
  | cons z l2 IH =>
    rintro xs ys ⟨t1, ht1⟩ ⟨t2, ht2⟩
    rw [List.cons_append] at ht1 ht2
    obtain ⟨t3, ht3⟩ := IH (l2 ++ t1) (l2 ++ t2) ⟨t1, rfl⟩ ⟨t2, rfl⟩
    refine ⟨t3, ?_⟩
    rw [← ht1, ← ht2]
    simp [cp]
    exact ht3

theorem lcaWalk_spec : ∀ xs ys : List Nat, ∀ s : Option Nat,
    lcaWalk xs ys s =
      match (cp xs ys).getLast? with
      | none => s
      | some z => some z := by
  intro xs
  induction xs with
  | nil => intro ys s; simp [lcaWalk, cp]
  | cons x as IH =>
    intro ys s
    cases ys with
    | nil => simp [lcaWalk, cp]
    | cons y bs =>
      by_cases h : x = y
      · subst h
        rw [show lcaWalk (x :: as) (x :: bs) s = lcaWalk as bs (some x) from by
          simp [lcaWalk]]
        rw [IH bs (some x)]
        have hcp : cp (x :: as) (x :: bs) = x :: cp as bs := by simp [cp]
        rw [hcp]
        cases hc : (cp as bs) with
        | nil => simp
        | cons c cs =>
          cases hd : (c :: cs).getLast? with
          | none => simp at hd
          | some z => simp [hd]
      · simp [lcaWalk, cp, h]

theorem wf_heapOrd {p : Nat → Option Nat} {n : Nat} (h : WFTree p n) : HeapOrd p n := by
  intro i hi q hq
  by_cases h0 : i = 0
  · subst h0
    rw [h.2.1] at hq
    cases hq
  · obtain ⟨q0, hq1, hq2, hq3⟩ := h.2.2 i hi h0
    rw [hq3] at hq
    injection hq with hq
    subst hq
    exact ⟨hq1, hq2⟩

theorem ancestorsF_irrel {p : Nat → Option Nat} {n : Nat} (hh : HeapOrd p n) :
    ∀ a, a < n → ∀ f g, a < f → a < g → ancestorsF p f a = ancestorsF p g a := by
  intro a
  induction a using Nat.strong_induction_on with
  | _ a IH =>
    intro ha f g hf hg
    cases f with
    | zero => omega
    | succ f1 =>
      cases g with
      | zero => omega
      | succ g1 =>
        cases hpa : p a with
        | none => simp [ancestorsF, hpa]
        | some q =>
          obtain ⟨hqa, hqn⟩ := hh a ha q hpa
          simp only [ancestorsF, hpa]
          rw [IH q hqa hqn f1 g1 (by omega) (by omega)]

theorem ancestors_of_none {p : Nat → Option Nat} {a : Nat} (h : p a = none) :
    ancestors p a = [a] := by
  simp [ancestors, ancestorsF, h]

theorem ancestors_of_some {p : Nat → Option Nat} {n : Nat} (hh : HeapOrd p n)
    {a q : Nat} (ha : a < n) (h : p a = some q) :
    ancestors p a = a :: ancestors p q := by
  obtain ⟨hqa, hqn⟩ := hh a ha q h
  have h1 : ancestors p a = a :: ancestorsF p a q := by
    show ancestorsF p (a + 1) a = a :: ancestorsF p a q
    simp only [ancestorsF, h]
  have h2 : ancestorsF p a q = ancestors p q :=
    ancestorsF_irrel hh q hqn a (q + 1) hqa (by omega)
  rw [h1, h2]

theorem ancestors_head (p : Nat → Option Nat) (a : Nat) :
    ∃ r, ancestors p a = a :: r := by
  cases hpa : p a with
  | none => exact ⟨[], by simp [ancestors, ancestorsF, hpa]⟩
  | some q => exact ⟨ancestorsF p a q, by simp [ancestors, ancestorsF, hpa]⟩

theorem mem_ancestors_self (p : Nat → Option Nat) (a : Nat) : a ∈ ancestors p a := by
  obtain ⟨r, hr⟩ := ancestors_head p a
  simp [hr]

theorem mem_ancestors_lt {p : Nat → Option Nat} {n : Nat} (hh : HeapOrd p n) :
    ∀ a, a < n → ∀ x, x ∈ ancestors p a → x < n := by
  intro a
  induction a using Nat.strong_induction_on with
  | _ a IH =>
    intro ha x hx
    cases hpa : p a with
    | none =>
      rw [ancestors_of_none hpa] at hx
      simp at hx
      omega
    | some q =>
      rw [ancestors_of_some hh ha hpa] at hx
      rcases List.mem_cons.mp hx with rfl | hx2
      · exact ha
      · obtain ⟨hqa, hqn⟩ := hh a ha q hpa
        exact IH q hqa hqn x hx2

theorem mem_ancestors_isSuf {p : Nat → Option Nat} {n : Nat} (hh : HeapOrd p n) :
    ∀ a, a < n → ∀ x, x ∈ ancestors p a → IsSuf (ancestors p x) (ancestors p a) := by
  intro a
  induction a using Nat.strong_induction_on with
  | _ a IH =>
    intro ha x hx
    cases hpa : p a with
    | none =>
      rw [ancestors_of_none hpa] at hx ⊢
      simp at hx
      subst hx
      exact ⟨[], by simp [ancestors_of_none hpa]⟩
    | some q =>
      rw [ancestors_of_some hh ha hpa] at hx ⊢
      rcases List.mem_cons.mp hx with rfl | hx2
      · exact ⟨[], by simp [ancestors_of_some hh ha hpa]⟩
      · obtain ⟨hqa, hqn⟩ := hh a ha q hpa
        obtain ⟨t, ht⟩ := IH q hqa hqn x hx2
        exact ⟨a :: t, by rw [List.cons_append, ht]⟩

theorem isSuf_ancestors_mem {p : Nat → Option Nat} {x : Nat} {v : List Nat}
    (h : IsSuf (ancestors p x) v) : x ∈ v := by
  obtain ⟨t, ht⟩ := h
  obtain ⟨r, hr⟩ := ancestors_head p x
  rw [← ht, hr]
  simp

theorem isSuf_chain_eq {p : Nat → Option Nat} {n : Nat} (hh : HeapOrd p n) :
    ∀ a, a < n → ∀ s x, IsSuf s (ancestors p a) → s.head? = some x →
      s = ancestors p x := by
  intro a
  induction a using Nat.strong_induction_on with
  | _ a IH =>
    intro ha s x hs hx
    cases hpa : p a with
    | none =>
      rw [ancestors_of_none hpa] at hs
      rcases isSuf_cons_iff.mp hs with rfl | hnil
      · rw [List.head?_cons] at hx
        injection hx with hx
        subst hx
        exact (ancestors_of_none hpa).symm
      · rw [isSuf_nil_right hnil] at hx
        cases hx
    | some q =>
      rw [ancestors_of_some hh ha hpa] at hs
      rcases isSuf_cons_iff.mp hs with rfl | hs2
      · rw [List.head?_cons] at hx
        injection hx with hx
        subst hx
        exact (ancestors_of_some hh ha hpa).symm
      · obtain ⟨hqa, hqn⟩ := hh a ha q hpa
        exact IH q hqa hqn s x hs2 hx

theorem ancestors_getLast_zero {p : Nat → Option Nat} {n : Nat} (hwf : WFTree p n) :
    ∀ a, a < n → (ancestors p a).getLast? = some 0 := by
  have hh := wf_heapOrd hwf
  intro a
  induction a using Nat.strong_induction_on with
  | _ a IH =>
    intro ha
    by_cases h0 : a = 0
    · subst h0
      rw [ancestors_of_none hwf.2.1]
      rfl
    · obtain ⟨q, hq1, hq2, hq3⟩ := hwf.2.2 a ha h0
      rw [ancestors_of_some hh ha hq3]
      obtain ⟨r, hr⟩ := ancestors_head p q
      rw [hr, List.getLast?_cons_cons, ← hr]
      exact IH q hq1 hq2

/-- C3: on a well-formed tree, `leastCommonAncestor(a, b)` returns a node
that is an ancestor of both `a` and `b` (each node being an ancestor of
itself), no proper descendant of which is a common ancestor of `a` and `b`,
and that equals `a` whenever `a = b`. -/
theorem leastCommonAncestor_correct (p : Nat → Option Nat) (n a b : Nat)
    (hwf : WFTree p n) (ha : a < n) (hb : b < n) :
    ∃ l, leastCommonAncestor p a b = some l ∧
      isAncestor p l a ∧ isAncestor p l b ∧
      (∀ d, isAncestor p l d → d ≠ l → ¬(isAncestor p d a ∧ isAncestor p d b)) ∧
      (a = b → l = a) := by
  have hh : HeapOrd p n := wf_heapOrd hwf
  by_cases hab : a = b
  · subst hab
    refine ⟨a, by simp [leastCommonAncestor], mem_ancestors_self p a,
      mem_ancestors_self p a, ?_, fun _ => rfl⟩
    rintro d hld hdl ⟨hda, _⟩
    have hdn : d < n := mem_ancestors_lt hh a ha d hda
    have h1 : IsSuf (ancestors p a) (ancestors p d) := mem_ancestors_isSuf hh d hdn a hld
    have h2 : IsSuf (ancestors p d) (ancestors p a) := mem_ancestors_isSuf hh a ha d hda
    have hrev := isPre_antisymm (isPre_rev_of_isSuf h1) (isPre_rev_of_isSuf h2)
    have hEq : ancestors p a = ancestors p d := List.reverse_inj.mp hrev
    obtain ⟨r1, hr1⟩ := ancestors_head p a
    obtain ⟨r2, hr2⟩ := ancestors_head p d
    rw [hr1, hr2] at hEq
    injection hEq with hEq _
    exact hdl hEq.symm
  · have hXh : (ancestors p a).reverse.head? = some 0 := by
      rw [List.head?_reverse]
      exact ancestors_getLast_zero hwf a ha
    have hYh : (ancestors p b).reverse.head? = some 0 := by
      rw [List.head?_reverse]
      exact ancestors_getLast_zero hwf b hb
    obtain ⟨X2, hX2⟩ : ∃ X2, (ancestors p a).reverse = 0 :: X2 := by
      cases hc : (ancestors p a).reverse with
      | nil => rw [hc] at hXh; cases hXh
      | cons z zs =>
        rw [hc, List.head?_cons] at hXh
        injection hXh with hz
        exact ⟨zs, by rw [hz]⟩
    obtain ⟨Y2, hY2⟩ : ∃ Y2, (ancestors p b).reverse = 0 :: Y2 := by
      cases hc : (ancestors p b).reverse with
      | nil => rw [hc] at hYh; cases hYh
      | cons z zs =>
        rw [hc, List.head?_cons] at hYh
        injection hYh with hz
        exact ⟨zs, by rw [hz]⟩
    have hcpcons : cp (ancestors p a).reverse (ancestors p b).reverse = 0 :: cp X2 Y2 := by
      rw [hX2, hY2]
      simp [cp]
    obtain ⟨l, hl⟩ : ∃ l, (cp (ancestors p a).reverse (ancestors p b).reverse).getLast? = some l := by
      rw [hcpcons]
      cases hc : cp X2 Y2 with
      | nil => exact ⟨0, rfl⟩
      | cons c cs =>
        rw [List.getLast?_cons_cons]
        cases hd : (c :: cs).getLast? with
        | none => simp at hd
        | some z => exact ⟨z, rfl⟩
    have hret : leastCommonAncestor p a b = some l := by
      rw [leastCommonAncestor, if_neg hab, lcaWalk_spec, hl]
    have hLrev : IsSuf (cp (ancestors p a).reverse (ancestors p b).reverse).reverse (ancestors p a) := by
      apply isSuf_of_isPre_rev
      rw [List.reverse_reverse]
      exact cp_isPre_left _ _
    have hLrevb : IsSuf (cp (ancestors p a).reverse (ancestors p b).reverse).reverse (ancestors p b) := by
      apply isSuf_of_isPre_rev
      rw [List.reverse_reverse]
      exact cp_isPre_right _ _
    have hLhead : (cp (ancestors p a).reverse (ancestors p b).reverse).reverse.head? = some l := by
      rw [List.head?_reverse]
      exact hl
    have hLanc : (cp (ancestors p a).reverse (ancestors p b).reverse).reverse = ancestors p l :=
      isSuf_chain_eq hh a ha _ l hLrev hLhead
    have hla : isAncestor p l a := isSuf_ancestors_mem (hLanc ▸ hLrev)
    have hlb : isAncestor p l b := isSuf_ancestors_mem (hLanc ▸ hLrevb)
    refine ⟨l, hret, hla, hlb, ?_, fun h => absurd h hab⟩
    rintro d hld hdl ⟨hda, hdb⟩
    have hdn : d < n := mem_ancestors_lt hh a ha d hda
    have hsda : IsSuf (ancestors p d) (ancestors p a) := mem_ancestors_isSuf hh a ha d hda
    have hsdb : IsSuf (ancestors p d) (ancestors p b) := mem_ancestors_isSuf hh b hb d hdb
    have hdL : IsPre (ancestors p d).reverse (cp (ancestors p a).reverse (ancestors p b).reverse) :=
      cp_greatest _ _ _ (isPre_rev_of_isSuf hsda) (isPre_rev_of_isSuf hsdb)
    have hsld : IsSuf (ancestors p l) (ancestors p d) := mem_ancestors_isSuf hh d hdn l hld
    have hLd : IsPre (cp (ancestors p a).reverse (ancestors p b).reverse) (ancestors p d).reverse := by
      have h1 := isPre_rev_of_isSuf hsld
      rw [← hLanc, List.reverse_reverse] at h1
      exact h1
    have heq := isPre_antisymm hdL hLd
    have heq2 : ancestors p d = ancestors p l := by
      have h2 : (ancestors p d).reverse.reverse = (cp (ancestors p a).reverse (ancestors p b).reverse).reverse := congrArg List.reverse heq
      rw [List.reverse_reverse, hLanc] at h2
      exact h2
    obtain ⟨r1, hr1⟩ := ancestors_head p d
    obtain ⟨r2, hr2⟩ := ancestors_head p l
    rw [hr1, hr2] at heq2
    injection heq2 with heq3 _
    exact hdl heq3

/-- Witness for C3: the six-node scenario tree is well formed and
`leastCommonAncestor(leaf1, leaf3)` satisfies the specification. -/
theorem leastCommonAncestor_correct_witness :
    ∃ l, leastCommonAncestor par6 3 5 = some l ∧
      isAncestor par6 l 3 ∧ isAncestor par6 l 5 ∧
      (∀ d, isAncestor par6 l d → d ≠ l → ¬(isAncestor par6 d 3 ∧ isAncestor par6 d 5)) ∧
      (3 = 5 → l = 3) :=
  leastCommonAncestor_correct par6 6 3 5
    ⟨by norm_num, rfl, by
      intro i hi hne
      interval_cases i
      · exact absurd rfl hne
      · exact ⟨0, by norm_num, by norm_num, rfl⟩
      · exact ⟨0, by norm_num, by norm_num, rfl⟩
      · exact ⟨1, by norm_num, by norm_num, rfl⟩
      · exact ⟨1, by norm_num, by norm_num, rfl⟩
      · exact ⟨2, by norm_num, by norm_num, rfl⟩⟩
    (by norm_num) (by norm_num)

/-- C4: for the edge leaf1 → leaf3 of the scenario tree (indices 3 and 5),
with the default identity `transformPoint`, the router computes LCA = root
and builds the control sequence [pos(leaf1), pos(A), pos(root), pos(B),
pos(leaf3)] in exactly that order, before the spline is straightened. -/
theorem spline_control_points_leaf1_leaf3 : ∀ pos : Nat → Vector,
    leastCommonAncestor par6 3 5 = some 0 ∧
    splinePoints par6 pos id 3 5 6 = some [pos 3, pos 1, pos 0, pos 2, pos 5] := by
  intro pos
  exact ⟨rfl, rfl⟩

/-- C5: on the scenario tree with startAngle 0 and endAngle 2π and no sort
comparator, the layout weights are 1 for each leaf, 3 for A (promotion
rule), 2 for B (promotion rule), 5 for the root; the angular spans are
[0, 2π/5] for leaf1, [2π/5, 4π/5] for leaf2 and [6π/5, 8π/5] for leaf3, so
leaf3's span is half the combined span of leaf1 and leaf2, and the midpoint
angles handed to `place` are π/5, 3π/5 and 7π/5. -/
theorem circleLayout_scenario :
    wcount (LTree.mk 3 []) = 1 ∧ wcount (LTree.mk 4 []) = 1 ∧
    wcount (LTree.mk 5 []) = 1 ∧
    wcount (LTree.mk 1 [LTree.mk 3 [], LTree.mk 4 []]) = 3 ∧
    wcount (LTree.mk 2 [LTree.mk 5 []]) = 2 ∧
    wcount tree6 = 5 ∧
    spans tree6 (0 : ℝ) (2 * Real.pi) =
      [(0, 0, 2 * Real.pi), (1, 0, 6 * Real.pi / 5), (3, 0, 2 * Real.pi / 5),
        (4, 2 * Real.pi / 5, 4 * Real.pi / 5), (2, 6 * Real.pi / 5, 2 * Real.pi),
        (5, 6 * Real.pi / 5, 8 * Real.pi / 5)] ∧
    ((0 : ℝ) + 2 * Real.pi / 5) / 2 = Real.pi / 5 ∧
    (2 * Real.pi / 5 + 4 * Real.pi / 5) / 2 = 3 * Real.pi / 5 ∧
    (6 * Real.pi / 5 + 8 * Real.pi / 5) / 2 = 7 * Real.pi / 5 ∧
    8 * Real.pi / 5 - 6 * Real.pi / 5 =
      ((2 * Real.pi / 5 - 0) + (4 * Real.pi / 5 - 2 * Real.pi / 5)) / 2 := by
  refine ⟨rfl, rfl, rfl, rfl, rfl, rfl, ?_, by ring, by ring, by ring, by ring⟩
  simp only [tree6, spans, spansKids, wcount, wcountSum]
  norm_num
  and_intros <;> ring

/-- C9: a BasisSpline has no segments for 0 control points, a single move
for 1, and a move plus a line for 2; and for a self-loop edge (i = j) the
router builds the single-point control sequence [position(i)], on which
`straighten` and `segments()` succeed, yielding exactly one move segment. -/
theorem basisSpline_degenerate_cases :
    computeSegments ([] : List Vector) = [] ∧
    (∀ pv : Vector, computeSegments [pv] = [Segment.move pv]) ∧
    (∀ pv qv : Vector, computeSegments [pv, qv] = [Segment.move pv, Segment.line qv]) ∧
    ∀ (p : Nat → Option Nat) (pos : Nat → Vector) (beta : ℚ) (i fuel : Nat),
      routerSpline p pos id beta i i fuel = some { pts := [pos i], segCache := none } ∧
      (routerSpline p pos id beta i i fuel).map segments = some [Segment.move (pos i)] := by
  refine ⟨rfl, fun pv => rfl, fun pv qv => rfl, fun p pos beta i fuel => ?_⟩
  have hasc : ∀ fl : Nat, ascendFrom p fl i i = some [] := by
    intro fl; cases fl <;> simp [ascendFrom]
  have hdes : ∀ (posT : Nat → Vector) (k : Nat) (fl : Nat) (acc : List Vector),
      descendLoop p posT k fl i i acc = some acc := by
    intro posT k fl acc; cases fl <;> simp [descendLoop]
  have h1 : routerSpline p pos id beta i i fuel = some { pts := [pos i], segCache := none } := by
    simp [routerSpline, splinePoints, leastCommonAncestor, hasc, hdes, straighten]
  exact ⟨h1, by rw [h1]; rfl⟩

/-! ### Flattening (claims C6 and C7) -/

/-- The squared-comparison flatness test decides exactly the source's
comparison `Line(s, e).distance(b.x, b.y) <= flatness`, where `distance` is
the absolute cross product over the square root of the squared length (or
the point distance for a degenerate line). -/
theorem distLE_iff_sqrt_dist_le (s e b : Vector) (f : ℚ) :
    distLE s e b f = true ↔
      (if (e.x : ℝ) - s.x = 0 ∧ (e.y : ℝ) - s.y = 0 then
        Real.sqrt (((s.x : ℝ) - b.x) ^ 2 + ((s.y : ℝ) - b.y) ^ 2)
      else
        |((e.x : ℝ) - s.x) * ((s.y : ℝ) - b.y) - ((e.y : ℝ) - s.y) * ((s.x : ℝ) - b.x)| /
          Real.sqrt (((e.x : ℝ) - s.x) ^ 2 + ((e.y : ℝ) - s.y) ^ 2)) ≤ (f : ℝ) := by
  by_cases h : e.x - s.x = 0 ∧ e.y - s.y = 0
  · have hR : (e.x : ℝ) - s.x = 0 ∧ (e.y : ℝ) - s.y = 0 := by
      constructor
      · exact_mod_cast congrArg (fun q : ℚ => (q : ℝ)) h.1
      · exact_mod_cast congrArg (fun q : ℚ => (q : ℝ)) h.2
    rw [if_pos hR, distLE, if_pos h, decide_eq_true_eq, Real.sqrt_le_iff]
    constructor
    · rintro ⟨h1, h2⟩
      refine ⟨by exact_mod_cast h1, ?_⟩
      exact_mod_cast h2
    · rintro ⟨h1, h2⟩
      refine ⟨by exact_mod_cast h1, ?_⟩
      exact_mod_cast h2
  · have hR : ¬((e.x : ℝ) - s.x = 0 ∧ (e.y : ℝ) - s.y = 0) := by
      intro hc
      exact h ⟨by exact_mod_cast hc.1, by exact_mod_cast hc.2⟩
    have hden : (0 : ℝ) < ((e.x : ℝ) - s.x) ^ 2 + ((e.y : ℝ) - s.y) ^ 2 := by
      rcases not_and_or.mp hR with h1 | h1
      · nlinarith [sq_nonneg ((e.y : ℝ) - s.y), sq_abs ((e.x : ℝ) - s.x),
          abs_pos.mpr h1]
      · nlinarith [sq_nonneg ((e.x : ℝ) - s.x), sq_abs ((e.y : ℝ) - s.y),
          abs_pos.mpr h1]
    rw [if_neg hR, distLE, if_neg h, decide_eq_true_eq]
    rw [← Real.sqrt_sq_eq_abs, ← Real.sqrt_div (by positivity), Real.sqrt_le_iff]
    rw [div_le_iff₀ hden]
    constructor
    · rintro ⟨h1, h2⟩
      exact ⟨by exact_mod_cast h1, by exact_mod_cast h2⟩
    · rintro ⟨h1, h2⟩
      exact ⟨by exact_mod_cast h1, by exact_mod_cast h2⟩

theorem distLE_eq_withinChord (a d b : Vector) (f : ℚ) :
    distLE a d b f = withinChord a d b f := by
  simp only [distLE, withinChord, vsub, cross]
  by_cases h : d.x - a.x = 0 ∧ d.y - a.y = 0
  · rw [if_pos h, if_pos h]
    rw [show (a.x - b.x) ^ 2 + (a.y - b.y) ^ 2 = (b.x - a.x) ^ 2 + (b.y - a.y) ^ 2 from by
      ring]
  · rw [if_neg h, if_neg h]
    rw [show ((d.x - a.x) * (a.y - b.y) - (d.y - a.y) * (a.x - b.x)) ^ 2
        = ((d.x - a.x) * (b.y - a.y) - (d.y - a.y) * (b.x - a.x)) ^ 2 from by ring]

theorem addCurve_eq_specCurve (f : ℚ) : ∀ (fuel : Nat) (a b c d : Vector),
    addCurve f fuel a b c d = (specCurve f fuel a b c d).map (List.map Segment.line) := by
  intro fuel
  induction fuel with
  | zero => intro a b c d; rfl
  | succ n IH =>
    intro a b c d
    have hbl : weightCurve (4/8) (4/8) (0/8) (0/8) a b c d = midPt a b := by
      simp [weightCurve, midPt]; constructor <;> ring
    have hcl : weightCurve (2/8) (4/8) (2/8) (0/8) a b c d = midPt (midPt a b) (midPt b c) := by
      simp [weightCurve, midPt]; constructor <;> ring
    have hdl : weightCurve (1/8) (3/8) (3/8) (1/8) a b c d
        = midPt (midPt (midPt a b) (midPt b c)) (midPt (midPt b c) (midPt c d)) := by
      simp [weightCurve, midPt]; constructor <;> ring
    have hbr : weightCurve (0/8) (2/8) (4/8) (2/8) a b c d = midPt (midPt b c) (midPt c d) := by
      simp [weightCurve, midPt]; constructor <;> ring
    have hcr : weightCurve (0/8) (0/8) (4/8) (4/8) a b c d = midPt c d := by
      simp [weightCurve, midPt]; constructor <;> ring
    simp only [addCurve, specCurve, distLE_eq_withinChord, hbl, hcl, hdl, hbr, hcr]
    cases hcond : (withinChord a d b f && withinChord a d c f) with
    | true => simp
    | false =>
      simp only [Bool.false_eq_true, if_false]
      rw [IH, IH]
      cases hL : specCurve f n a (midPt a b) (midPt (midPt a b) (midPt b c))
          (midPt (midPt (midPt a b) (midPt b c)) (midPt (midPt b c) (midPt c d))) with
      | none => simp
      | some L =>
        cases hR : specCurve f n
            (midPt (midPt (midPt a b) (midPt b c)) (midPt (midPt b c) (midPt c d)))
            (midPt (midPt b c) (midPt c d)) (midPt c d) d with
        | none => simp
        | some R => simp

theorem flattenSegs_eq_spec (f : ℚ) (fuel : Nat) :
    ∀ (prev? : Option Segment) (segs : List Segment),
    flattenSegs f fuel prev? segs = flattenSpecSegs f fuel prev? segs := by
  intro prev? segs
  induction segs generalizing prev? with
  | nil => rfl
  | cons s rest IH =>
    cases s with
    | move p => simp only [flattenSegs, flattenSpecSegs, IH]
    | line p => simp only [flattenSegs, flattenSpecSegs, IH]
    | bezier p c1 c2 =>
      cases prev? with
      | none => rfl
      | some prev =>
        simp only [flattenSegs, flattenSpecSegs, addCurve_eq_specCurve]
        cases hc : specCurve f fuel (segPoint prev) c1 c2 p with
        | none => rfl
        | some cur => simp [IH]

/-- C6: on any non-flat path, `flatten` expands each cubic exactly by the
spec's recursion: if the two inner control points lie within `flatness` of
the chord between the endpoints, one line segment to the endpoint is
emitted; otherwise the curve is split at its midpoint by the standard
subdivision matrices (the de Casteljau averages) and both halves are
processed recursively, left first. -/
theorem flatten_follows_spec (f : ℚ) (fuel : Nat) (segs : List Segment)
    (h : flat segs = false) :
    flatten f fuel segs = flattenSpecSegs f fuel none segs ∧
    ∀ a b c d : Vector,
      addCurve f fuel a b c d = (specCurve f fuel a b c d).map (List.map Segment.line) := by
  refine ⟨?_, fun a b c d => addCurve_eq_specCurve f fuel a b c d⟩
  rw [flatten, if_neg (by simp [h])]
  exact flattenSegs_eq_spec f fuel none segs

/-- Witness for C6 at a concrete one-cubic path. -/
theorem flatten_follows_spec_witness :
    flat [Segment.move ⟨0, 0⟩, Segment.bezier ⟨8, 0⟩ ⟨2, 1⟩ ⟨6, -1⟩] = false ∧
    flatten 1 3 [Segment.move ⟨0, 0⟩, Segment.bezier ⟨8, 0⟩ ⟨2, 1⟩ ⟨6, -1⟩]
      = flattenSpecSegs 1 3 none [Segment.move ⟨0, 0⟩, Segment.bezier ⟨8, 0⟩ ⟨2, 1⟩ ⟨6, -1⟩] :=
  ⟨by decide,
    (flatten_follows_spec 1 3 [Segment.move ⟨0, 0⟩, Segment.bezier ⟨8, 0⟩ ⟨2, 1⟩ ⟨6, -1⟩]
      (by decide)).1⟩

theorem addCurve_all_lines (f : ℚ) : ∀ (fuel : Nat) (a b c d : Vector) (L : List Segment),
    addCurve f fuel a b c d = some L → flat L = true := by
  intro fuel
  induction fuel with
  | zero => intro a b c d L h; cases h
  | succ n IH =>
    intro a b c d L h
    cases hcond : (distLE a d b f && distLE a d c f) with
    | true =>
      simp only [addCurve, hcond, if_true] at h
      injection h with h
      subst h
      rfl
    | false =>
      simp only [addCurve, hcond, Bool.false_eq_true, if_false] at h
      cases hL : addCurve f n a (weightCurve (4/8) (4/8) (0/8) (0/8) a b c d)
          (weightCurve (2/8) (4/8) (2/8) (0/8) a b c d)
          (weightCurve (1/8) (3/8) (3/8) (1/8) a b c d) with
      | none => rw [hL] at h; cases h
      | some L1 =>
        rw [hL] at h
        cases hR : addCurve f n (weightCurve (1/8) (3/8) (3/8) (1/8) a b c d)
            (weightCurve (0/8) (2/8) (4/8) (2/8) a b c d)
            (weightCurve (0/8) (0/8) (4/8) (4/8) a b c d) d with
        | none => rw [hR] at h; cases h
        | some R1 =>
          rw [hR] at h
          injection h with h
          subst h
          have h1 := IH a _ _ _ L1 hL
          have h2 := IH _ _ _ d R1 hR
          simp [flat] at h1 h2 ⊢
          exact ⟨h1, h2⟩

theorem flattenSegs_flat (f : ℚ) (fuel : Nat) :
    ∀ (prev? : Option Segment) (segs out : List Segment),
    flattenSegs f fuel prev? segs = some out → flat out = true := by
  intro prev? segs
  induction segs generalizing prev? with
  | nil => intro out h; injection h with h; subst h; rfl
  | cons s rest IH =>
    intro out h
    cases s with
    | move p =>
      simp only [flattenSegs] at h
      cases ht : flattenSegs f fuel (some (Segment.move p)) rest with
      | none => rw [ht] at h; cases h
      | some t =>
        rw [ht] at h
        injection h with h
        subst h
        simpa [flat] using IH (some (Segment.move p)) t ht
    | line p =>
      simp only [flattenSegs] at h
      cases ht : flattenSegs f fuel (some (Segment.line p)) rest with
      | none => rw [ht] at h; cases h
      | some t =>
        rw [ht] at h
        injection h with h
        subst h
        simpa [flat] using IH (some (Segment.line p)) t ht
    | bezier p c1 c2 =>
      cases prev? with
      | none => cases h
      | some prev =>
        simp only [flattenSegs] at h
        cases hc : addCurve f fuel (segPoint prev) c1 c2 p with
        | none => rw [hc] at h; cases h
        | some cur =>
          rw [hc] at h
          cases ht : flattenSegs f fuel (some (Segment.bezier p c1 c2)) rest with
          | none => rw [ht] at h; cases h
          | some tail =>
            rw [ht] at h
            injection h with h
            subst h
            have h1 := addCurve_all_lines f fuel _ _ _ _ cur hc
            have h2 := IH (some (Segment.bezier p c1 c2)) tail ht
            simp [flat] at h1 h2 ⊢
            exact ⟨h1, h2⟩

/-- C7: whenever `flatten` terminates (returns within the given fuel), the
result contains no Bezier segment, so a second `flatten` — with any
flatness and fuel — short-circuits on the flat check and returns the
segment sequence unchanged. -/
theorem flatten_idempotent (f f2 : ℚ) (fuel fuel2 : Nat) (segs out : List Segment)
    (h : flatten f fuel segs = some out) :
    flat out = true ∧ flatten f2 fuel2 out = some out := by
  have hflat : flat out = true := by
    by_cases hf : flat segs = true
    · rw [flatten, if_pos hf] at h
      injection h with h
      subst h
      exact hf
    · rw [flatten, if_neg hf] at h
      exact flattenSegs_flat f fuel none segs out h
  exact ⟨hflat, by rw [flatten, if_pos hflat]⟩

/-- Witness for C7 at a concrete one-cubic path. -/
theorem flatten_idempotent_witness :
    flat [Segment.move ⟨0, 0⟩, Segment.line ⟨8, 0⟩] = true ∧
    flatten 1 3 [Segment.move ⟨0, 0⟩, Segment.line ⟨8, 0⟩]
      = some [Segment.move ⟨0, 0⟩, Segment.line ⟨8, 0⟩] :=
  flatten_idempotent 1 1 3 3 [Segment.move ⟨0, 0⟩, Segment.bezier ⟨8, 0⟩ ⟨2, 1⟩ ⟨6, -1⟩]
    [Segment.move ⟨0, 0⟩, Segment.line ⟨8, 0⟩] (by
      have hb : distLE ⟨0, 0⟩ ⟨8, 0⟩ ⟨2, 1⟩ 1 = true := by
        simp only [distLE]
        norm_num
      have hc : distLE ⟨0, 0⟩ ⟨8, 0⟩ ⟨6, -1⟩ 1 = true := by
        simp only [distLE]
        norm_num
      simp [flatten, flat, flattenSegs, addCurve, segPoint, hb, hc])

/-! ### Straighten (claim C8) -/

theorem straighten_len (beta : ℚ) (s : BasisSpline) :
    (straighten beta s).pts.length = s.pts.length := by
  simp [straighten]

theorem headD_eq_getD_zero (z : List Vector) : z.headD ⟨0, 0⟩ = z.getD 0 ⟨0, 0⟩ := by
  cases z <;> rfl

theorem getD_eq_get (z : List Vector) (i : Nat) (hi : i < z.length) :
    z.getD i ⟨0, 0⟩ = z.get ⟨i, hi⟩ := by
  rw [List.getD_eq_getElem?_getD, List.getElem?_eq_getElem hi]
  rfl

theorem straighten_get (beta : ℚ) (s : BasisSpline) (h2 : 2 ≤ s.pts.length)
    (i : Nat) (hi : i < s.pts.length) (hi2 : i < (straighten beta s).pts.length) :
    (straighten beta s).pts.get ⟨i, hi2⟩ =
      if 0 < i ∧ i < s.pts.length - 1 then straightFormula beta s.pts i
      else s.pts.get ⟨i, hi⟩ := by
  have hcast : ((s.pts.length - 1 : ℕ) : ℚ) = (s.pts.length : ℚ) - 1 := by
    have h1 : 1 ≤ s.pts.length := by omega
    push_cast [h1]
    ring
  simp only [straighten] at hi2 ⊢
  rw [List.get_mapIdx]
  by_cases hcond : 0 < i ∧ i < s.pts.length - 1
  · rw [if_pos hcond, if_pos ⟨hcond.1, hcond.2⟩]
    simp only [straightFormula]
    rw [headD_eq_getD_zero, getD_eq_get s.pts i hi]
    congr 1 <;> rw [hcast] <;> ring
  · have hcond2 : ¬(1 ≤ i ∧ i < s.pts.length - 1) := hcond
    rw [if_neg hcond, if_neg hcond2]

theorem straightFormula_one (z : List Vector) (i : Nat) :
    straightFormula 1 z i = z.getD i ⟨0, 0⟩ := by
  simp only [straightFormula]
  have h1 : ∀ px q : ℚ, (1 : ℚ) * px + (1 - 1) * q = px := by intro px q; ring
  simp only [h1]

theorem straighten_one (s : BasisSpline) (h2 : 2 ≤ s.pts.length) :
    (straighten 1 s).pts = s.pts := by
  apply List.ext_get (straighten_len 1 s)
  intro i hi2 hi
  rw [straighten_get 1 s h2 i hi hi2]
  by_cases hcond : 0 < i ∧ i < s.pts.length - 1
  · rw [if_pos hcond, straightFormula_one, getD_eq_get s.pts i hi]
  · rw [if_neg hcond]

/-- C8: for a spline with at least two control points, `straighten(beta)`
nulls the segment cache, keeps the number of control points, leaves the
first and last control points (and only those) untouched, and replaces
every interior point `P_i` by `beta*P_i + (1-beta)*(P_0 +
(P_{N-1}-P_0)*i/(N-1))`; in particular `straighten(1)` leaves all control
points unchanged and `straighten(0)` puts each interior point exactly at
the fraction `i/(N-1)` along the chord. -/
theorem straighten_moves_interior (beta : ℚ) (s : BasisSpline) (h : 2 ≤ s.pts.length) :
    (straighten beta s).segCache = none ∧
    (straighten beta s).pts.length = s.pts.length ∧
    (∀ (i : Nat) (hi : i < s.pts.length) (hi2 : i < (straighten beta s).pts.length),
      (straighten beta s).pts.get ⟨i, hi2⟩ =
        if 0 < i ∧ i < s.pts.length - 1 then straightFormula beta s.pts i
        else s.pts.get ⟨i, hi⟩) ∧
    (straighten 1 s).pts = s.pts ∧
    (∀ (i : Nat) (hi2 : i < (straighten 0 s).pts.length),
      0 < i → i < s.pts.length - 1 →
      (straighten 0 s).pts.get ⟨i, hi2⟩ = straightFormula 0 s.pts i) := by
  refine ⟨rfl, straighten_len beta s, fun i hi hi2 => straighten_get beta s h i hi hi2,
    straighten_one s h, fun i hi2 h1 h2 => ?_⟩
  have hi : i < s.pts.length := by
    have hl := straighten_len 0 s
    omega
  rw [straighten_get 0 s h i hi hi2, if_pos ⟨h1, h2⟩]

/-- Witness for C8 on a three-point spline with a stale cache. -/
theorem straighten_moves_interior_witness :
    (straighten (1/2) { pts := [⟨0, 0⟩, ⟨5, 7⟩, ⟨10, 0⟩], segCache := some [] }).segCache
      = none ∧
    (straighten (1/2) { pts := [⟨0, 0⟩, ⟨5, 7⟩, ⟨10, 0⟩], segCache := some [] }).pts.length
      = ({ pts := [⟨0, 0⟩, ⟨5, 7⟩, ⟨10, 0⟩], segCache := some [] } : BasisSpline).pts.length :=
  ⟨(straighten_moves_interior (1/2) { pts := [⟨0, 0⟩, ⟨5, 7⟩, ⟨10, 0⟩], segCache := some [] }
      (by decide)).1,
    (straighten_moves_interior (1/2) { pts := [⟨0, 0⟩, ⟨5, 7⟩, ⟨10, 0⟩], segCache := some [] }
      (by decide)).2.1⟩

/-! ### Line.intersect on collinear segments (claim C10) -/

theorem cross_zero_of_line {A B : ℚ} (hAB : ¬(A = 0 ∧ B = 0)) :
    ∀ x1 y1 x2 y2 : ℚ, A * x1 + B * y1 = 0 → A * x2 + B * y2 = 0 →
      x1 * y2 - y1 * x2 = 0 := by
  intro x1 y1 x2 y2 k1 k2
  by_cases hA : A = 0
  · have hB : B ≠ 0 := fun hB => hAB ⟨hA, hB⟩
    subst hA
    have hy1 : y1 = 0 := by
      have hz : B * y1 = 0 := by linear_combination k1
      exact (mul_eq_zero.mp hz).resolve_left hB
    have hy2 : y2 = 0 := by
      have hz : B * y2 = 0 := by linear_combination k2
      exact (mul_eq_zero.mp hz).resolve_left hB
    rw [hy1, hy2]
    ring
  · have h5 : A * (x1 * y2 - y1 * x2) = 0 := by linear_combination y2 * k1 - y1 * k2
    exact (mul_eq_zero.mp h5).resolve_left hA

/-- C10: whenever the four endpoints of the two segments are collinear,
`Line.intersect` returns true — even for disjoint segments — because the
common denominator `f` and the two numerators `d` and `e` (the
cross-product test values) are then all exactly zero, so every range check
passes. -/
theorem intersect_collinear (p1 p2 q1 q2 : Vector) (h : CollinearPts p1 p2 q1 q2) :
    intersect p1 p2 q1 q2 = true := by
  obtain ⟨A, B, C, hAB, h1, h2, h3, h4⟩ := h
  have key := cross_zero_of_line hAB
  have hd : dot ⟨p1.x - q1.x, p1.y - q1.y⟩ (perp ⟨q2.x - q1.x, q2.y - q1.y⟩) = 0 := by
    have hk := key (p1.x - q1.x) (p1.y - q1.y) (q2.x - q1.x) (q2.y - q1.y)
      (by linear_combination h1 - h3) (by linear_combination h4 - h3)
    simp only [dot, perp]
    linear_combination -hk
  have hf : dot ⟨q2.x - q1.x, q2.y - q1.y⟩ ⟨p1.y - p2.y, p2.x - p1.x⟩ = 0 := by
    have hk := key (p2.x - p1.x) (p2.y - p1.y) (q2.x - q1.x) (q2.y - q1.y)
      (by linear_combination h2 - h1) (by linear_combination h4 - h3)
    simp only [dot]
    linear_combination hk
  have he : dot ⟨p1.x - q1.x, p1.y - q1.y⟩ ⟨p1.y - p2.y, p2.x - p1.x⟩ = 0 := by
    have hk := key (p1.x - q1.x) (p1.y - q1.y) (p2.x - p1.x) (p2.y - p1.y)
      (by linear_combination h1 - h3) (by linear_combination h2 - h1)
    simp only [dot]
    linear_combination -hk
  simp [intersect, hd, hf, he]

/-- Witness for C10: the disjoint collinear segments (0,0)-(1,0) and
(2,0)-(3,0) are reported as intersecting. -/
theorem intersect_collinear_witness :
    intersect ⟨0, 0⟩ ⟨1, 0⟩ ⟨2, 0⟩ ⟨3, 0⟩ = true :=
  intersect_collinear ⟨0, 0⟩ ⟨1, 0⟩ ⟨2, 0⟩ ⟨3, 0⟩
    ⟨0, 1, 0, by norm_num, by norm_num, by norm_num, by norm_num, by norm_num⟩

end DepVis
